import Mathlib

/-!
Verification development for the BPReveal repository (`bpreveal`), centred on
`src/bedUtils.py` (segment construction, tiling, coverage counting, interval
resizing, and the `ParallelCounter` worker pool) and `src/motifScan.py`
(configuration validation of the motif-scan entry point).

Python integers are modelled by `Int` (Python `//` is floor division, modelled
by `Int.fdiv`), genomic sequences by `List Char`, and numpy per-base bigwig
values by `List (Option Int)` where `none` models a NaN entry (the claims in
scope concern only the summation structure, never float rounding, so integer
values are a faithful carrier).  Genomic coordinates coming from BED records
are non-negative, matching the data-model invariant `start >= 0`.
-/

namespace BPReveal

/-- Model of a `pybedtools.Interval`: a half-open genomic interval
`[start, stop)` on a named chromosome.  The `end` field of the Python object
is called `stop` here because `end` is a Lean keyword.  The optional
name/score/strand fields play no role in the claims under study and are
omitted. -/
structure Interval where
  chrom : String
  start : Int
  stop : Int
deriving DecidableEq, Repr

/-- Model of the inner `shrinkSegment` closure of `bedUtils.tileSegments`
(lines 126-131): shrink a segment by `padding` on each side and drop it
(`none`, matching the Python `return False` that makes `BedTool.each` skip
the feature) when the shrunk width falls below `outputLength`. -/
def shrinkSegment (padding outputLength : Int) (s : Interval) : Option Interval :=
  let newEnd := s.stop - padding
  let newStart := s.start + padding
  if newEnd - newStart < outputLength then none
  else some ⟨s.chrom, newStart, newEnd⟩

/-- Model of the region-placement loop of `bedUtils.tileSegments`
(lines 139-151) on one shrunk segment `s`, starting at cursor `startPos`.
The Python `while endPos < s.end` loop advances the cursor by
`spacing + outputLength` each iteration; after the loop, if `startPos < s.end`
one extra right-aligned window `[s.end - outputLength, s.end)` is emitted.
The Python loop terminates exactly when `0 < spacing + outputLength` (each
iteration strictly advances the cursor); the `fuel` argument bounds the
recursion and is chosen large enough by `tileSegment` that it never runs out
under that condition. -/
def tileLoop (outputLength spacing : Int) (s : Interval) : Nat → Int → List Interval
  | 0, _ => []
  | fuel + 1, startPos =>
    if startPos + outputLength < s.stop then
      ⟨s.chrom, startPos, startPos + outputLength⟩ ::
        tileLoop outputLength spacing s fuel (startPos + spacing + outputLength)
    else if startPos < s.stop then
      [⟨s.chrom, s.stop - outputLength, s.stop⟩]
    else []

/-- All regions generated for one shrunk segment: the loop is entered with the
cursor at the segment start.  The fuel `(s.stop - s.start).toNat + 1` is
sufficient whenever `0 < spacing + outputLength`, because each iteration
advances the cursor by at least one base. -/
def tileSegment (outputLength spacing : Int) (s : Interval) : List Interval :=
  tileLoop outputLength spacing s ((s.stop - s.start).toNat + 1) s.start

/-- Model of `bedUtils.tileSegments` (lines 91-154): compute the padding
`(inputLength - outputLength) // 2`, shrink-and-filter every segment, then
emit the tiling regions of each surviving segment in order. -/
def tileSegments (inputLength outputLength : Int) (segments : List Interval)
    (spacing : Int) : List Interval :=
  let padding := (inputLength - outputLength).fdiv 2
  ((segments.filterMap (shrinkSegment padding outputLength)).map
    (tileSegment outputLength spacing)).flatten

/-- Model of one NaN-aware per-base bigwig value: `bw.values` returns floats
where missing data is NaN; `none` stands for NaN. -/
def nanToNum (x : Option Int) : Int := x.getD 0

/-- Model of `bedUtils.getCounts` (lines 231-245) applied to the per-base
value lists fetched from each open bigwig over the interval `[start, end)`:
`np.nan_to_num` replaces NaN entries by 0 and `np.sum` adds the (signed)
values; the per-track sums are accumulated into `total`.  Note the source
takes no absolute value. -/
def getCounts (tracks : List (List (Option Int))) : Int :=
  tracks.foldl (fun total bw => total + ((bw.map nanToNum).sum)) 0

/-- The coverage contract as the specification words it (spec section 4.1 and
the docstring of `bedUtils._counterThread`, lines 358-364): per track, replace
NaN with 0, sum the ABSOLUTE per-base values, then sum across tracks.  This
definition follows the spec text and is compared against `getCounts`, which
is translated from the `getCounts` source. -/
def coverageSpec (tracks : List (List (Option Int))) : Int :=
  (tracks.map (fun bw => ((bw.map (fun v => |nanToNum v|)).sum))).sum

/-- The three resize modes accepted by `bedUtils.resize` (any other string
hits the `assert False` catch-all of the Python `match`). -/
inductive ResizeMode
  | modeNone
  | center
  | start
deriving DecidableEq, Repr

/-- Outcome of `bedUtils.resize`: the Python function either fails an
assertion (mode `"none"` with the wrong width), returns `False` when the
resized interval would run off the chromosome edge, or returns a freshly
allocated interval. -/
inductive ResizeResult
  | assertFail
  | offEdge
  | ok (i : Interval)
deriving DecidableEq, Repr

/-- Model of `bedUtils.resize` (lines 183-228).  `chromLength` stands for
`genome.get_reference_length(interval.chrom)`.  Python `//` is floor
division, hence `Int.fdiv`.  The returned interval keeps the chromosome of
the input; the name/score/strand fields are outside the model. -/
def resize (interval : Interval) (mode : ResizeMode) (width : Int)
    (chromLength : Int) : ResizeResult :=
  let se : Option (Int × Int) :=
    match mode with
    | .modeNone =>
      if interval.stop - interval.start ≠ width then none
      else some (interval.start, interval.stop)
    | .center =>
      let center := (interval.stop + interval.start).fdiv 2
      let s := center - width.fdiv 2
      some (s, s + width)
    | .start =>
      let s := interval.start - width.fdiv 2
      some (s, s + width)
  match se with
  | none => .assertFail
  | some (s, e) =>
    if s ≤ 0 ∨ e ≥ chromLength then .offEdge
    else .ok ⟨interval.chrom, s, e⟩

/-- Model of the validity test of `bedUtils._findNonN` (line 73): a base is
valid when it is neither `N` nor `n`. -/
def isValidBase (c : Char) : Bool := !(c == 'N' || c == 'n')

/-- Model of the `starts` vector of `bedUtils._findNonN` (lines 77-85),
returned as the ascending list of indices where it is set
(`np.flatnonzero(starts)`): position `i` starts a valid run when it is valid
and either `i = 0` or position `i - 1` is invalid.  `prev` carries the
validity of the position just before the current list; the top-level call
uses `prev = false`, matching `starts[0] = isValid[0]`. -/
def risingEdges (prev : Bool) : List Bool → List Nat
  | [] => []
  | b :: v =>
    let rest := (risingEdges b v).map (· + 1)
    if b && !prev then 0 :: rest else rest

/-- Model of the `ends` vector of `bedUtils._findNonN` (lines 75-84),
returned as `np.flatnonzero(ends)`: position `i` ends a valid run when it is
valid and either it is the last position (`ends[-1] = isValid[-1]`) or
position `i + 1` is invalid. -/
def fallingEdges : List Bool → List Nat
  | [] => []
  | b :: v =>
    let rest := (fallingEdges v).map (· + 1)
    if b && !(v.headD false) then 0 :: rest else rest

/-- The `zip(startPoses, endPoses)` pairing of `bedUtils._findNonN` (line
86): pairs `(startPos, stopPos)` with `stopPos` INCLUSIVE, exactly as the
Python indices before the `stopPos + 1` adjustment. -/
def nonNRuns (v : List Bool) : List (Nat × Nat) :=
  (risingEdges false v).zip (fallingEdges v)

/-- Model of `bedUtils._findNonN` (lines 59-88): intervals
`(chromName, startPos, stopPos + 1)` for each run of valid bases.  (On an
empty chromosome the numpy code raises an IndexError at `starts[0]`; the
model returns `[]` there, a case no claim depends on.) -/
def findNonN (chromName : String) (seq : List Char) : List Interval :=
  (nonNRuns (seq.map isValidBase)).map (fun p => ⟨chromName, (p.1 : Int), (p.2 : Int) + 1⟩)

/-- Model of one blacklist-masking step of `bedUtils.makeWhitelistSegments`
(lines 50-54): an interval starting at or past the end of the chromosome is
skipped (`continue`); otherwise the slice `[start, min(length, end))` is
overwritten with `N`.  Faithful for `0 ≤ b.start`, the BED invariant
(negative Python slice indices would wrap). -/
def maskInterval (seq : List Char) (b : Interval) : List Char :=
  if (seq.length : Int) ≤ b.start then seq
  else
    seq.mapIdx (fun i c =>
      if b.start ≤ (i : Int) ∧ (i : Int) < min (seq.length : Int) b.stop then 'N' else c)

/-- Apply every blacklist interval of one chromosome in order, as the
`for blackInterval in blacklistsByChrom[chromName]` loop does. -/
def maskList (seq : List Char) (blacklist : List Interval) : List Char :=
  blacklist.foldl maskInterval seq

/-- The per-chromosome body of `bedUtils.makeWhitelistSegments` (lines
46-55): mask the blacklisted ranges with `N`, then extract the valid runs. -/
def makeWhitelistSegmentsChrom (chromName : String) (seq : List Char)
    (blacklist : List Interval) : List Interval :=
  findNonN chromName (maskList seq blacklist)

/-- Model of `bedUtils.makeWhitelistSegments` (lines 14-56).  The genome is
an association list of (chromosome name, sequence) in the iteration order of
`sorted(genome.references)`; `blacklistsByChrom` groups the blacklist by
chromosome preserving the original order, which is exactly a filter by
chromosome name. -/
def makeWhitelistSegments (genome : List (String × List Char))
    (blacklist : List Interval) : List Interval :=
  (genome.map (fun g =>
    makeWhitelistSegmentsChrom g.1 g.2 (blacklist.filter (fun b => b.chrom == g.1)))).flatten

/-- Length of the named chromosome in the genome (0 when absent), as an
integer for comparison with interval coordinates. -/
def chromLength (genome : List (String × List Char)) (c : String) : Int :=
  ((genome.find? (fun g => g.1 == c)).map (fun g => (g.2.length : Int))).getD 0

/-- Clamp a blacklist to chromosome bounds: drop intervals starting at or
past the chromosome end and truncate ends to the chromosome length.  Used to
state that `makeWhitelistSegments` already behaves as if its blacklist had
been clamped. -/
def clampBlacklist (genome : List (String × List Char))
    (blacklist : List Interval) : List Interval :=
  blacklist.filterMap (fun b =>
    if chromLength genome b.chrom ≤ b.start then none
    else some ⟨b.chrom, b.start, min b.stop (chromLength genome b.chrom)⟩)

/-- The sub-configuration `seqlet-cutoff-settings` of `motifScan.main`.  Only
the fields that steer the control flow of `main` are modelled; the remaining
fields (`modisco-h5`, quantile parameters, ...) are forwarded opaquely to
`motifUtils.seqletCutoffs`, an external collaborator outside `src/`. -/
structure CutoffSettings where
  seqletsTsv : Option String
  quantileJson : Option String
deriving DecidableEq, Repr

/-- The `scan-settings` block of the motifScan configuration. -/
structure ScanSettings where
  scanContribH5 : String
  hitsTsv : String
  numThreads : Nat
deriving DecidableEq, Repr

/-- The motifScan configuration as read by `motifScan.main`: the two
mutually exclusive cutoff sources are optional keys of the JSON object. -/
structure MotifScanConfig where
  seqletCutoffSettings : Option CutoffSettings
  seqletCutoffJson : Option String
  scanSettings : ScanSettings
deriving DecidableEq, Repr

/-- The externally visible actions `motifScan.main` can perform, in program
order.  `scanPatterns` is the only action that spawns parallel workers
(inside `motifUtils.scanPatterns`) and performs scan work. -/
inductive ScanEvent
  | seqletAnalysis (tsvFname : Option String)
  | saveQuantileJson (path : String)
  | loadCutoffJson (path : String)
  | scanPatterns (contribH5 : String) (hitsTsv : String) (numThreads : Nat)
deriving DecidableEq, Repr

/-- The message of the `assert` on lines 153-154 of `motifScan.py`. -/
def bothCutoffsMsg : String :=
  "You cannot name a seqlet-cutoff-json to read in the config file if you also specify seqlet-cutoff-settings."

/-- Model of `motifScan.main` (lines 146-194) as the list of actions it
performs before returning, paired with `some errorMessage` when it raises
(a failed `assert`, or the `KeyError` when neither cutoff source is given).
Actions performed before a raise appear in the list; an error produced
before any action yields an empty list. -/
def motifScanMain (config : MotifScanConfig) : List ScanEvent × Option String :=
  match config.seqletCutoffSettings with
  | some cutoffConfig =>
    match config.seqletCutoffJson with
    | some _ => ([], some bothCutoffsMsg)
    | none =>
      let analysisEvents := [ScanEvent.seqletAnalysis cutoffConfig.seqletsTsv]
      let saveEvents :=
        match cutoffConfig.quantileJson with
        | some p => [ScanEvent.saveQuantileJson p]
        | none => []
      (analysisEvents ++ saveEvents ++
        [ScanEvent.scanPatterns config.scanSettings.scanContribH5
          config.scanSettings.hitsTsv config.scanSettings.numThreads], none)
  | none =>
    match config.seqletCutoffJson with
    | some path =>
      ([ScanEvent.loadCutoffJson path,
        ScanEvent.scanPatterns config.scanSettings.scanContribH5
          config.scanSettings.hitsTsv config.scanSettings.numThreads], none)
    | none => ([], some "KeyError: seqlet-cutoff-json")

/-- A query handed to `ParallelCounter.addQuery` (line 299): the
`(chrom, start, end)` triple is opaque to the dispatcher and worker protocol,
so it is abstracted to a `payload`; `idx` is the caller's opaque index that
must round-trip. -/
structure Query where
  payload : Nat
  idx : Nat
deriving DecidableEq, Repr

/-- A result produced by `_counterThread` (line 375): the computed counts
paired with the index straight from the input queue. -/
structure CountResult where
  value : Int
  idx : Nat
deriving DecidableEq, Repr

/-- The worker computes `getCounts` over its own bigwig handles; that
external computation is abstracted as a function `f` of the query payload.
`procQ` is the result record the worker builds on lines 374-375. -/
def procQ (f : Nat → Int) (q : Query) : CountResult :=
  ⟨f q.payload, q.idx⟩

/-- Control state of one `_counterThread` worker (lines 367-385).
`idle buf n`: at the top of the `while True` loop, about to call
`inQueue.get()`, holding its local `outDeque` (`buf`, newest element first,
`appendleft` = cons) and the matching `inDeque` counter `n`.
`busy q buf n`: it has taken query `q` off the input queue but has not yet
pushed the result (the `getCounts` call is in progress) — this intermediate
state is what lets results from different workers reach the output queue out
of submission order.
`finished`: it has consumed a `None` sentinel, flushed, and exited. -/
inductive WorkerState
  | idle (buf : List CountResult) (n : Int)
  | busy (q : Query) (buf : List CountResult) (n : Int)
  | finished
deriving DecidableEq, Repr

/-- Fueled body of the worker flush loop (lines 377-379):
`while outQueue.empty and inDeque > 0`.  `outQueue.empty` is written WITHOUT
parentheses: it is a bound-method object, always truthy, so the condition is
effectively `inDeque > 0` and the worker pushes its whole deque, oldest
(rightmost) first.  Each iteration decrements `inDeque` by one, so
`n.toNat` rounds of fuel are exactly the iterations the Python loop runs.
The `none` branch models `pop()` raising IndexError on an empty deque,
unreachable because `inDeque` always equals the deque length. -/
def workerFlushAux : Nat → List CountResult → Int → List CountResult →
    List CountResult × Int × List CountResult
  | 0, buf, n, outQ => (buf, n, outQ)
  | fuel + 1, buf, n, outQ =>
    if 0 < n then
      match buf.getLast? with
      | some r => workerFlushAux fuel buf.dropLast (n - 1) (outQ ++ [r])
      | none => (buf, n, outQ)
    else (buf, n, outQ)

/-- The flush loop itself: returns the new `(outDeque, inDeque, outQueue)`
of the worker. -/
def workerFlush (buf : List CountResult) (n : Int) (outQ : List CountResult) :
    List CountResult × Int × List CountResult :=
  workerFlushAux n.toNat buf n outQ

/-- The post-`break` flush of `_counterThread` (lines 382-384):
`while inDeque: outQueue.put(outDeque[-1]); inDeque -= 1`.  Note that
`outDeque[-1]` PEEKS at the oldest element without popping it, so the same
element would be put `inDeque` times; and with an empty deque but a positive
counter Python would raise IndexError (modelled as putting nothing).  Both
oddities are unreachable because the eager flush above keeps `inDeque = 0`
and the deque empty at every `get`. -/
def workerFinalFlush (buf : List CountResult) (n : Int) (outQ : List CountResult) :
    List CountResult :=
  match buf.getLast? with
  | some r => outQ ++ List.replicate n.toNat r
  | none => outQ

/-- The quadruple of dispatcher fields the drain loop of `addQuery` touches. -/
structure DrainState where
  outQueue : List CountResult
  outDeque : List CountResult
  inFlight : Int
  numInDeque : Int
deriving DecidableEq, Repr

/-- The `while not self.outQueue.empty():` loop of `addQuery` (lines
307-310): move every currently available result from the (FIFO,
head-oldest) output queue to the left end of the dispatcher deque,
incrementing `numInDeque` and decrementing `inFlight` per item. -/
def drainOut : List CountResult → List CountResult → Int → Int → DrainState
  | [], dq, fl, nid => ⟨[], dq, fl, nid⟩
  | r :: rest, dq, fl, nid => drainOut rest (r :: dq) (fl - 1) (nid + 1)

/-- Global state of a `ParallelCounter` run: the scripted client (queries
not yet submitted in `pending`, results received in `returned`, in order),
the two `multiprocessing.Queue`s as FIFO lists (put appends at the tail, get
takes the head; `none` in the input queue is the shutdown sentinel of
`done`), the worker pool, and the dispatcher bookkeeping fields of
`ParallelCounter.__init__`. -/
structure CounterState where
  pending : List Query
  inQueue : List (Option Query)
  outQueue : List CountResult
  workers : List WorkerState
  outDeque : List CountResult
  inFlight : Int
  numInDeque : Int
  returned : List CountResult
  doneSent : Bool
deriving DecidableEq, Repr

/-- `ParallelCounter.addQuery` (lines 299-310): put the query (tagged with
its index) at the tail of the input queue, bump `inFlight`, then drain the
output queue. -/
def addQueryOp (s : CounterState) (q : Query) (rest : List Query) : CounterState :=
  let d := drainOut s.outQueue s.outDeque (s.inFlight + 1) s.numInDeque
  { s with pending := rest, inQueue := s.inQueue ++ [some q],
           outQueue := d.outQueue, outDeque := d.outDeque,
           inFlight := d.inFlight, numInDeque := d.numInDeque }

/-- The conditional blocking branch of `getResult` (lines 327-330): take ONE
result off the output queue into the left end of the deque. -/
def fillOp (s : CounterState) (r : CountResult) (restQ : List CountResult) : CounterState :=
  { s with outQueue := restQ, outDeque := r :: s.outDeque,
           numInDeque := s.numInDeque + 1, inFlight := s.inFlight - 1 }

/-- The unconditional tail of `getResult` (lines 331-332): decrement
`numInDeque` and pop the OLDEST (rightmost) element of the deque, which is
handed to the caller (appended to `returned`). -/
def popOp (s : CounterState) : CounterState :=
  { s with numInDeque := s.numInDeque - 1,
           outDeque := s.outDeque.dropLast,
           returned := s.returned ++ s.outDeque.getLast?.toList }

/-- The worker finishing one query (lines 374-379): build the result,
`appendleft` it onto the worker deque, bump the worker counter, and run the
flush loop; returns the worker's new `(outDeque, inDeque)` and the new
shared output queue. -/
def workerPushOp (f : Nat → Int) (q : Query) (buf : List CountResult) (n : Int)
    (outQ : List CountResult) : List CountResult × Int × List CountResult :=
  workerFlush (procQ f q :: buf) (n + 1) outQ

/-- Interleaving small-step semantics of the whole system.  Client calls
(`addQuery`, `getResult`, `done`) are modelled as atomic steps — each is a
composition of elementary queue moves, every one of which preserves the
invariants proved below, so the coarser grouping loses nothing for those
invariants.  A blocking `Queue.get` is modelled by the step being enabled
only when the queue is non-empty (the `timeout=QUEUE_TIMEOUT` failure path
is a worker/dispatcher failure, excluded by the claims' no-failure
assumption).  Worker processing is deliberately split into a `take` and a
`push` step so that workers genuinely interleave: two busy workers may push
in either order, which is the source of the no-ordering guarantee. -/
inductive Step (f : Nat → Int) : CounterState → CounterState → Prop
  | addQuery (s : CounterState) (q : Query) (rest : List Query)
      (hp : s.pending = q :: rest) :
      Step f s (addQueryOp s q rest)
  | getResultFill (s : CounterState) (r : CountResult) (restQ : List CountResult)
      (hfl : s.inFlight ≠ 0) (hnid : s.numInDeque = 0) (hq : s.outQueue = r :: restQ) :
      Step f s (popOp (fillOp s r restQ))
  | getResultPop (s : CounterState)
      (hguard : ¬(s.inFlight ≠ 0 ∧ s.numInDeque = 0)) (hne : s.outDeque ≠ []) :
      Step f s (popOp s)
  | workerTake (s : CounterState) (q : Query) (restQ : List (Option Query))
      (w1 w2 : List WorkerState) (buf : List CountResult) (n : Int)
      (hq : s.inQueue = some q :: restQ)
      (hw : s.workers = w1 ++ WorkerState.idle buf n :: w2) :
      Step f s { s with
        inQueue := restQ,
        workers := w1 ++ WorkerState.busy q buf n :: w2 }
  | workerPush (s : CounterState) (q : Query)
      (w1 w2 : List WorkerState) (buf : List CountResult) (n : Int)
      (hw : s.workers = w1 ++ WorkerState.busy q buf n :: w2) :
      Step f s { s with
        outQueue := (workerPushOp f q buf n s.outQueue).2.2,
        workers := w1 ++ WorkerState.idle (workerPushOp f q buf n s.outQueue).1
          (workerPushOp f q buf n s.outQueue).2.1 :: w2 }
  | workerSentinel (s : CounterState) (restQ : List (Option Query))
      (w1 w2 : List WorkerState) (buf : List CountResult) (n : Int)
      (hq : s.inQueue = none :: restQ)
      (hw : s.workers = w1 ++ WorkerState.idle buf n :: w2) :
      Step f s { s with
        inQueue := restQ,
        outQueue := workerFinalFlush buf n s.outQueue,
        workers := w1 ++ WorkerState.finished :: w2 }
  | doneStep (s : CounterState) (hd : s.doneSent = false) (hp : s.pending = []) :
      Step f s { s with
        doneSent := true,
        inQueue := s.inQueue ++ List.replicate s.workers.length none }

/-- The state right after `ParallelCounter.__init__`, with the client about
to submit the queries `subs` in order. -/
def initState (subs : List Query) (numThreads : Nat) : CounterState :=
  { pending := subs, inQueue := [], outQueue := [],
    workers := List.replicate numThreads (WorkerState.idle [] 0),
    outDeque := [], inFlight := 0, numInDeque := 0, returned := [], doneSent := false }

/-- Reachability under the interleaving semantics. -/
def Reaches (f : Nat → Int) : CounterState → CounterState → Prop :=
  Relation.ReflTransGen (Step f)

/-- The queries still sitting in the input queue (sentinels are not
queries). -/
def queueQueries (inQ : List (Option Query)) : List Query :=
  inQ.filterMap id

/-- The local deque of a worker (empty once it has exited). -/
def wbuf : WorkerState → List CountResult
  | .idle buf _ => buf
  | .busy _ buf _ => buf
  | .finished => []

/-- The `inDeque` counter of a worker. -/
def wcount : WorkerState → Int
  | .idle _ n => n
  | .busy _ _ n => n
  | .finished => 0

/-- The query a busy worker is currently processing, as a list. -/
def wheld : WorkerState → List Query
  | .busy q _ _ => [q]
  | _ => []

/-- Whether a worker has exited. -/
def isFinished : WorkerState → Bool
  | .finished => true
  | _ => false

/-- Number of workers in the pool that have exited. -/
def countFinished (ws : List WorkerState) : Nat :=
  (ws.filter isFinished).length

/-- Every result in the system, as one ordered list: results already
returned to the caller, then the dispatcher deque (oldest last, hence
reversed), the shared output queue, the workers' local deques, the queries
workers are busy on, the queries waiting in the input queue, and finally the
queries the client has not submitted yet — each query counted as its
eventual result.  Every step permutes this list, and steps of a pool with at
most one worker preserve it exactly. -/
def sysList (f : Nat → Int) (s : CounterState) : List CountResult :=
  s.returned ++ s.outDeque.reverse ++ s.outQueue ++ (s.workers.map wbuf).flatten ++
    ((s.workers.map wheld).flatten).map (procQ f) ++
    (queueQueries s.inQueue).map (procQ f) ++ s.pending.map (procQ f)

/-- Whether a worker is mid-computation on a query. -/
def isBusy : WorkerState → Bool
  | .busy _ _ _ => true
  | _ => false

/-- Number of workers currently mid-computation. -/
def busyCount (ws : List WorkerState) : Nat :=
  (ws.filter isBusy).length

/-- The per-query counting function of the dispatcher-ordering scenario:
the computed counts are irrelevant to ordering, so the payload itself is
returned. -/
def orderF : Nat → Int := fun p => (p : Int)

/-- The submissions of the dispatcher-ordering scenario: three queries with
opaque indices 0, 1, 2, submitted in that order. -/
def orderSubs : List Query := [⟨0, 0⟩, ⟨1, 1⟩, ⟨2, 2⟩]

/-- The final state of the complete scripted run of the ordering scenario on
a one-worker pool: all three results returned (in submission order), the
worker exited, queues empty. -/
def orderFinal : CounterState :=
  { pending := [], inQueue := [], outQueue := [],
    workers := [WorkerState.finished], outDeque := [], inFlight := 0,
    numInDeque := 0, returned := [⟨0, 0⟩, ⟨1, 1⟩, ⟨2, 2⟩], doneSent := true }

/-- The master invariant of the `ParallelCounter` protocol. -/
structure Inv (f : Nat → Int) (subs : List Query) (W : Nat) (s : CounterState) : Prop where
  conserve : List.Perm (sysList f s) (subs.map (procQ f))
  ordered : W ≤ 1 → sysList f s = subs.map (procQ f)
  deqCount : s.numInDeque = (s.outDeque.length : Int)
  flightCount : s.inFlight = ((queueQueries s.inQueue).length : Int) +
    (((s.workers.map wheld).flatten).length : Int) +
    (((s.workers.map wbuf).flatten).length : Int) + (s.outQueue.length : Int)
  bufsEmpty : ∀ w ∈ s.workers, wbuf w = [] ∧ wcount w = 0
  wlen : s.workers.length = W
  sentinels : s.inQueue.count none + countFinished s.workers =
    (if s.doneSent then W else 0)

/-- C3: tiling the single segment `[0, 30)` with `inputLength` (windowWidth)
10, `outputLength` (innerWidth) 6 and spacing 5 yields exactly the three
windows `[2, 8)`, `[13, 19)` and the final right-aligned `[22, 28)`, in this
order. -/
theorem tileSegments_scenario_three_windows :
    tileSegments 10 6 [⟨"chr1", 0, 30⟩] 5 =
      [⟨"chr1", 2, 8⟩, ⟨"chr1", 13, 19⟩, ⟨"chr1", 22, 28⟩] := by
  decide

/-- C1: `getCounts` sums the SIGNED per-base values (after replacing NaN by
0), while the contract — spec section 4.1 and the docstring of
`_counterThread`, which documents `total += sum(abs(bw.values(...)))` — sums
absolute values.  On a single track holding a single value `-1` over the
interval, the code returns `-1` where its own documentation requires `1`. -/
theorem getCounts_drops_sign :
    getCounts [[some (-1)]] = -1 ∧ coverageSpec [[some (-1)]] = 1 ∧
      getCounts [[some (-1)]] ≠ coverageSpec [[some (-1)]] := by
  decide

/-- C9: for modes `center` and `start`, `resize` returns `False` (here
`offEdge`) exactly when the recomputed start is `≤ 0` or the recomputed end
is `≥` the chromosome length — so a resized interval touching coordinate 0
or ending exactly at the chromosome length is rejected even though it lies
inside the chromosome — and otherwise returns a new interval of width
exactly `width` on the same chromosome. -/
theorem resize_edge_exactness (interval : Interval) (width chromLength : Int) :
    (resize interval .center width chromLength =
        (if (interval.stop + interval.start).fdiv 2 - width.fdiv 2 ≤ 0 ∨
            (interval.stop + interval.start).fdiv 2 - width.fdiv 2 + width ≥ chromLength
         then ResizeResult.offEdge
         else ResizeResult.ok ⟨interval.chrom,
            (interval.stop + interval.start).fdiv 2 - width.fdiv 2,
            (interval.stop + interval.start).fdiv 2 - width.fdiv 2 + width⟩)
      ∧ ((interval.stop + interval.start).fdiv 2 - width.fdiv 2 + width) -
          ((interval.stop + interval.start).fdiv 2 - width.fdiv 2) = width)
    ∧ (resize interval .start width chromLength =
        (if interval.start - width.fdiv 2 ≤ 0 ∨
            interval.start - width.fdiv 2 + width ≥ chromLength
         then ResizeResult.offEdge
         else ResizeResult.ok ⟨interval.chrom, interval.start - width.fdiv 2,
            interval.start - width.fdiv 2 + width⟩)
      ∧ (interval.start - width.fdiv 2 + width) - (interval.start - width.fdiv 2) = width) := by
  refine ⟨⟨rfl, by ring⟩, ⟨rfl, by ring⟩⟩

/-- C7: when the motifScan configuration carries both a
`seqlet-cutoff-settings` block and a `seqlet-cutoff-json` path, `main` fails
on the assertion of lines 153-154 before performing ANY action: the action
trace is empty, so in particular no worker pool is spawned and no scan work
(nor even the seqlet analysis) is started. -/
theorem motifScanMain_fails_fast_on_both_cutoffs (config : MotifScanConfig)
    (cs : CutoffSettings) (j : String)
    (hs : config.seqletCutoffSettings = some cs)
    (hj : config.seqletCutoffJson = some j) :
    motifScanMain config = ([], some bothCutoffsMsg) := by
  simp [motifScanMain, hs, hj]

/-- Witness for C7 at a concrete configuration carrying both cutoff
sources. -/
theorem motifScanMain_fails_fast_on_both_cutoffs_witness :
    motifScanMain ⟨some ⟨none, none⟩, some "cutoffs.json", ⟨"scan.h5", "hits.tsv", 3⟩⟩ =
      ([], some bothCutoffsMsg) :=
  motifScanMain_fails_fast_on_both_cutoffs _ ⟨none, none⟩ "cutoffs.json" rfl rfl

/-- Every window the placement loop emits stays inside the (shrunk) segment
`s` and has width exactly `outputLength`, provided the cursor never sits
left of the segment and the segment is wide enough for one window (the
shrink filter guarantees the latter). -/
theorem tileLoop_windows_inside (L spacing : Int) (s : Interval)
    (hstep : 0 < spacing + L) (hwidth : L ≤ s.stop - s.start) :
    ∀ (fuel : Nat) (startPos : Int), s.start ≤ startPos →
      ∀ w ∈ tileLoop L spacing s fuel startPos,
        w.chrom = s.chrom ∧ s.start ≤ w.start ∧ w.stop ≤ s.stop ∧ w.stop - w.start = L := by
  intro fuel
  induction fuel with
  | zero => intro startPos _ w hw; simp [tileLoop] at hw
  | succ n ih =>
    intro startPos hsp w hw
    rw [tileLoop] at hw
    by_cases h1 : startPos + L < s.stop
    · rw [if_pos h1] at hw
      rcases List.mem_cons.mp hw with rfl | hw'
      · exact ⟨rfl, hsp, le_of_lt h1, by ring⟩
      · exact ih (startPos + spacing + L) (by omega) w hw'
    · rw [if_neg h1] at hw
      by_cases h2 : startPos < s.stop
      · rw [if_pos h2] at hw
        rcases List.mem_singleton.mp hw with rfl
        refine ⟨rfl, ?_, le_refl _, ?_⟩
        · show s.start ≤ s.stop - L
          omega
        · show s.stop - (s.stop - L) = L
          ring
      · rw [if_neg h2] at hw
        simp at hw

/-- Coverage of the placement loop: with enough fuel, every position from
the cursor to the segment end lies inside some emitted window or at most
`max spacing 0` bases past earlier window's end (the spacing gap). -/
theorem tileLoop_covers (L spacing : Int) (s : Interval) (hstep : 0 < spacing + L) :
    ∀ (fuel : Nat) (startPos : Int), (s.stop - startPos).toNat < fuel →
      ∀ p : Int, startPos ≤ p → p < s.stop →
        ∃ w ∈ tileLoop L spacing s fuel startPos,
          w.start ≤ p ∧ p < w.stop + max spacing 0 := by
  intro fuel
  induction fuel with
  | zero => intro startPos h; omega
  | succ n ih =>
    intro startPos hfuel p hp1 hp2
    rw [tileLoop]
    by_cases h1 : startPos + L < s.stop
    · rw [if_pos h1]
      by_cases hc : p < startPos + L + max spacing 0
      · exact ⟨⟨s.chrom, startPos, startPos + L⟩, List.mem_cons_self _ _, hp1, hc⟩
      · have hsp : spacing ≤ max spacing 0 := le_max_left _ _
        have hnext : startPos + spacing + L ≤ p := by omega
        have hfuel' : (s.stop - (startPos + spacing + L)).toNat < n := by omega
        obtain ⟨w, hw, hws, hwe⟩ := ih (startPos + spacing + L) hfuel' p hnext hp2
        exact ⟨w, List.mem_cons_of_mem _ hw, hws, hwe⟩
    · have h2 : startPos < s.stop := lt_of_le_of_lt hp1 hp2
      rw [if_neg h1, if_pos h2]
      refine ⟨⟨s.chrom, s.stop - L, s.stop⟩, List.mem_singleton_self _, ?_, ?_⟩
      · show s.stop - L ≤ p
        omega
      · show p < s.stop + max spacing 0
        have : (0 : Int) ≤ max spacing 0 := le_max_right _ _
        omega

/-- Unfolding of a successful shrink: the surviving segment is the input
shrunk by `padding` on each side, and it is at least `outputLength` wide. -/
theorem shrinkSegment_eq_some (padding L : Int) (s t : Interval)
    (h : shrinkSegment padding L s = some t) :
    t = ⟨s.chrom, s.start + padding, s.stop - padding⟩ ∧
      L ≤ (s.stop - padding) - (s.start + padding) := by
  unfold shrinkSegment at h
  by_cases hc : s.stop - padding - (s.start + padding) < L
  · simp [hc] at h
  · simp [hc] at h
    exact ⟨h.symm, by omega⟩

/-- C5 (amended): with a terminating step (`0 < spacing + outputLength`),
(1) every emitted window has width `outputLength` and lies inside the SHRUNK
segment `[start + padding, stop - padding)` of one of the input segments
(hence inside that segment, but up to `padding` bases at each edge are never
covered); (2) for each segment whose shrunk width is at least
`outputLength`, the windows cover the shrunk segment except for gaps of at
most `max spacing 0` bases after a window — between consecutive windows as
well as at the tail, not only at the tail; (3) a segment whose shrunk width
falls below `outputLength` is discarded and contributes no window. -/
theorem tileSegments_shrunk_coverage (inputLength outputLength spacing : Int)
    (segs : List Interval) (hstep : 0 < spacing + outputLength) :
    (∀ w ∈ tileSegments inputLength outputLength segs spacing,
       ∃ s ∈ segs, w.chrom = s.chrom ∧
         s.start + (inputLength - outputLength).fdiv 2 ≤ w.start ∧
         w.stop ≤ s.stop - (inputLength - outputLength).fdiv 2 ∧
         w.stop - w.start = outputLength)
    ∧ (∀ s ∈ segs,
        outputLength ≤ (s.stop - (inputLength - outputLength).fdiv 2) -
            (s.start + (inputLength - outputLength).fdiv 2) →
        ∀ p : Int, s.start + (inputLength - outputLength).fdiv 2 ≤ p →
          p < s.stop - (inputLength - outputLength).fdiv 2 →
          ∃ w ∈ tileSegments inputLength outputLength segs spacing,
            w.start ≤ p ∧ p < w.stop + max spacing 0)
    ∧ (∀ s : Interval,
        (s.stop - (inputLength - outputLength).fdiv 2) -
            (s.start + (inputLength - outputLength).fdiv 2) < outputLength →
        tileSegments inputLength outputLength [s] spacing = []) := by
  set padding := (inputLength - outputLength).fdiv 2 with hpadding
  refine ⟨?_, ?_, ?_⟩
  · intro w hw
    unfold tileSegments at hw
    rw [List.mem_flatten] at hw
    obtain ⟨l, hl, hwl⟩ := hw
    rw [List.mem_map] at hl
    obtain ⟨t, ht, rfl⟩ := hl
    rw [List.mem_filterMap] at ht
    obtain ⟨s, hs, hshrink⟩ := ht
    obtain ⟨rfl, hwide⟩ := shrinkSegment_eq_some _ _ _ _ hshrink
    have := tileLoop_windows_inside outputLength spacing _ hstep
      (by simpa using hwide) _ _ (le_refl _) w hwl
    exact ⟨s, hs, this.1, this.2.1, this.2.2.1, this.2.2.2⟩
  · intro s hs hwide p hp1 hp2
    have hshrink : shrinkSegment padding outputLength s =
        some ⟨s.chrom, s.start + padding, s.stop - padding⟩ := by
      unfold shrinkSegment
      rw [if_neg (by omega)]
    obtain ⟨w, hw, hws, hwe⟩ :=
      tileLoop_covers outputLength spacing ⟨s.chrom, s.start + padding, s.stop - padding⟩
        hstep ((s.stop - padding - (s.start + padding)).toNat + 1) (s.start + padding)
        (by dsimp only; omega) p hp1 hp2
    refine ⟨w, ?_, hws, hwe⟩
    unfold tileSegments
    rw [List.mem_flatten]
    refine ⟨tileSegment outputLength spacing ⟨s.chrom, s.start + padding, s.stop - padding⟩,
      ?_, hw⟩
    rw [List.mem_map]
    exact ⟨⟨s.chrom, s.start + padding, s.stop - padding⟩,
      List.mem_filterMap.mpr ⟨s, hs, hshrink⟩, rfl⟩
  · intro s hnarrow
    unfold tileSegments
    have : shrinkSegment padding outputLength s = none := by
      unfold shrinkSegment
      rw [if_pos (by omega)]
    simp [this]

/-- Witness for C5 (amended) at the concrete scenario of C3: position 5 of
the shrunk segment `[2, 28)` is covered up to the spacing slack. -/
theorem tileSegments_shrunk_coverage_witness :
    ∃ w ∈ tileSegments 10 6 [⟨"chr1", 0, 30⟩] 5, w.start ≤ 5 ∧ (5 : Int) < w.stop + max 5 0 :=
  (tileSegments_shrunk_coverage 10 6 5 [⟨"chr1", 0, 30⟩] (by decide)).2.1
    ⟨"chr1", 0, 30⟩ (List.mem_singleton_self _) (by decide) 5 (by decide) (by decide)

/-- C5 counterexample: in the C3 scenario (segment `[0, 30)`, windowWidth
10, innerWidth 6, spacing 5), positions 0 and 8 of the segment are covered
by NO emitted window, although both lie more than `spacing` bases away from
the segment's tail end `[25, 30)` — so the windows do not cover
`[segment.start, segment.end)` with losses confined to at most `spacing`
bases at the tail. -/
theorem tiling_full_coverage_fails :
    (¬ ∃ w ∈ tileSegments 10 6 [⟨"chr1", 0, 30⟩] 5, w.start ≤ 0 ∧ (0 : Int) < w.stop)
    ∧ (¬ ∃ w ∈ tileSegments 10 6 [⟨"chr1", 0, 30⟩] 5, w.start ≤ 8 ∧ (8 : Int) < w.stop)
    ∧ (0 : Int) + 5 < 30 ∧ (8 : Int) + 5 < 30 := by
  decide

/-- An invalid leading base contributes no rising edge and shifts the rest. -/
theorem risingEdges_cons_false (prev : Bool) (w : List Bool) :
    risingEdges prev (false :: w) = (risingEdges false w).map (· + 1) := by
  simp [risingEdges]

/-- An invalid leading base contributes no falling edge and shifts the rest. -/
theorem fallingEdges_cons_false (w : List Bool) :
    fallingEdges (false :: w) = (fallingEdges w).map (· + 1) := by
  simp [fallingEdges]

/-- When the list does not begin with a valid base, the pre-list validity
flag is irrelevant to the rising edges. -/
theorem risingEdges_true_of_headD (v : List Bool) (h : v.headD false = false) :
    risingEdges true v = risingEdges false v := by
  cases v with
  | nil => rfl
  | cons b w =>
    simp only [List.headD_cons] at h
    subst h
    rw [risingEdges_cons_false, risingEdges_cons_false]

/-- Rising edges across a run continuation: inside a valid run no new edge
rises, so everything comes from the remainder, shifted. -/
theorem risingEdges_true_replicate (k : Nat) (rest : List Bool)
    (h : rest.headD false = false) :
    risingEdges true (List.replicate k true ++ rest) =
      (risingEdges false rest).map (· + k) := by
  induction k with
  | zero =>
    rw [List.replicate_zero, List.nil_append, risingEdges_true_of_headD rest h]
    simp
  | succ n ih =>
    rw [List.replicate_succ, List.cons_append]
    have h1 : risingEdges true (true :: (List.replicate n true ++ rest)) =
        (risingEdges true (List.replicate n true ++ rest)).map (· + 1) := by
      simp [risingEdges]
    rw [h1, ih, List.map_map]
    have h2 : ((· + 1) ∘ (· + n) : Nat → Nat) = (· + (n + 1)) := by
      funext x
      show x + n + 1 = x + (n + 1)
      omega
    rw [h2]

/-- A maximal valid run of length `k + 1` at the head of the list produces
exactly one rising edge, at position 0. -/
theorem risingEdges_false_replicate (k : Nat) (rest : List Bool)
    (h : rest.headD false = false) :
    risingEdges false (List.replicate (k + 1) true ++ rest) =
      0 :: (risingEdges false rest).map (· + (k + 1)) := by
  rw [List.replicate_succ, List.cons_append]
  have h1 : risingEdges false (true :: (List.replicate k true ++ rest)) =
      0 :: (risingEdges true (List.replicate k true ++ rest)).map (· + 1) := by
    simp [risingEdges]
  rw [h1, risingEdges_true_replicate k rest h, List.map_map]
  have h2 : ((· + 1) ∘ (· + k) : Nat → Nat) = (· + (k + 1)) := by
    funext x
    show x + k + 1 = x + (k + 1)
    omega
  rw [h2]

/-- A maximal valid run of length `k + 1` at the head of the list produces
exactly one falling edge, at its last position `k`. -/
theorem fallingEdges_replicate (k : Nat) (rest : List Bool)
    (h : rest.headD false = false) :
    fallingEdges (List.replicate (k + 1) true ++ rest) =
      k :: (fallingEdges rest).map (· + (k + 1)) := by
  induction k with
  | zero =>
    rw [List.replicate_succ, List.cons_append, List.replicate_zero, List.nil_append]
    simp only [fallingEdges]
    rw [h]
    simp
  | succ n ih =>
    rw [List.replicate_succ, List.cons_append]
    have hhead : (List.replicate (n + 1) true ++ rest).headD false = true := by
      rw [List.replicate_succ, List.cons_append, List.headD_cons]
    have h1 : fallingEdges (true :: (List.replicate (n + 1) true ++ rest)) =
        (fallingEdges (List.replicate (n + 1) true ++ rest)).map (· + 1) := by
      simp only [fallingEdges]
      rw [hhead]
      simp
    rw [h1, ih, List.map_cons, List.map_map]
    congr 1

/-- Indexing into a valid run followed by a remainder. -/
theorem getD_replicate_append (j : Nat) (rest : List Bool) (i : Nat) :
    (List.replicate j true ++ rest).getD i false =
      if i < j then true else rest.getD (i - j) false := by
  induction j generalizing i with
  | zero => simp
  | succ n ih =>
    rw [List.replicate_succ, List.cons_append]
    cases i with
    | zero => simp
    | succ m =>
      rw [List.getD_cons_succ, ih]
      by_cases hm : m < n
      · rw [if_pos hm, if_pos (by omega)]
      · rw [if_neg hm, if_neg (by omega)]
        congr 1
        omega

/-- The head default view of `getD` at index 0. -/
theorem getD_zero_headD (l : List Bool) : l.getD 0 false = l.headD false := by
  cases l <;> rfl

/-- Dropping the leading valid run leaves a list that does not start with a
valid base. -/
theorem dropWhile_id_headD (v : List Bool) :
    ((v.dropWhile (fun b => b)).headD false) = false := by
  induction v with
  | nil => rfl
  | cons b w ih =>
    rw [List.dropWhile_cons]
    cases b
    · simp
    · simpa using ih

/-- Characterisation of the runs extracted by the rising/falling edge scan
of `_findNonN`: every produced pair `(a, b)` (with `b` inclusive) is a run
of valid positions that cannot be extended on either side, and every valid
position belongs to some produced pair. -/
theorem nonNRuns_spec (n : Nat) : ∀ v : List Bool, v.length = n →
    (∀ p ∈ nonNRuns v, p.1 ≤ p.2 ∧ p.2 < v.length ∧
      (∀ i : Nat, p.1 ≤ i → i ≤ p.2 → v.getD i false = true) ∧
      (p.1 = 0 ∨ v.getD (p.1 - 1) false = false) ∧
      (p.2 + 1 = v.length ∨ v.getD (p.2 + 1) false = false))
    ∧ (∀ i : Nat, i < v.length → v.getD i false = true →
        ∃ p ∈ nonNRuns v, p.1 ≤ i ∧ i ≤ p.2) := by
  induction n using Nat.strong_induction_on with
  | _ n ih =>
    intro v hv
    rcases v with _ | ⟨b, w⟩
    · constructor
      · intro p hp
        simp [nonNRuns, risingEdges, fallingEdges] at hp
      · intro i hi
        simp at hi
    · cases b
      · -- leading invalid base: everything shifts by one
        have hw := ih w.length (by simp at hv; omega) w rfl
        have hzip : nonNRuns (false :: w) = (nonNRuns w).map (Prod.map (· + 1) (· + 1)) := by
          unfold nonNRuns
          rw [risingEdges_cons_false, fallingEdges_cons_false]
          exact List.zip_map _ _ _ _
        constructor
        · intro p hp
          rw [hzip, List.mem_map] at hp
          obtain ⟨⟨a, c⟩, hq, rfl⟩ := hp
          obtain ⟨h1, h2, h3, h4, h5⟩ := hw.1 (a, c) hq
          refine ⟨by simpa using Nat.add_le_add_right h1 1, ?_, ?_, ?_, ?_⟩
          · simpa [Nat.add_lt_add_iff_right] using h2
          · intro i hi1 hi2
            simp only [Prod.map] at hi1 hi2
            obtain ⟨m, rfl⟩ : ∃ m, i = m + 1 := ⟨i - 1, by omega⟩
            rw [List.getD_cons_succ]
            exact h3 m (by omega) (by omega)
          · right
            show (false :: w).getD (a + 1 - 1) false = false
            by_cases ha : a = 0
            · subst ha
              rfl
            · obtain ⟨m, rfl⟩ : ∃ m, a = m + 1 := ⟨a - 1, by omega⟩
              rcases h4 with h40 | h4r
              · exact absurd h40 (by omega)
              · show (false :: w).getD (m + 1 + 1 - 1) false = false
                rw [show m + 1 + 1 - 1 = m + 1 from rfl, List.getD_cons_succ]
                simpa using h4r
          · rcases h5 with h5l | h5r
            · left
              show c + 1 + 1 = (false :: w).length
              rw [List.length_cons]
              omega
            · right
              show (false :: w).getD (c + 1 + 1) false = false
              rw [List.getD_cons_succ]
              exact h5r
        · intro i hi hvalid
          rcases i with _ | m
          · rw [List.getD_cons_zero] at hvalid
            exact absurd hvalid (by simp)
          · rw [List.getD_cons_succ] at hvalid
            obtain ⟨⟨a, c⟩, hq, hq1, hq2⟩ := hw.2 m (by simp at hi; omega) hvalid
            refine ⟨(a + 1, c + 1), ?_, by omega, by omega⟩
            rw [hzip]
            exact List.mem_map.mpr ⟨(a, c), hq, rfl⟩
      · -- leading valid base: strip the maximal leading run
        have hsplit : true :: w =
            List.replicate ((List.takeWhile (fun x => x) w).length + 1) true ++
              List.dropWhile (fun x => x) w := by
          have h1 : List.takeWhile (fun x => x) w ++ List.dropWhile (fun x => x) w = w :=
            List.takeWhile_append_dropWhile _ _
          have h2 : List.takeWhile (fun x => x) w =
              List.replicate (List.takeWhile (fun x => x) w).length true :=
            List.eq_replicate_of_mem (fun b hb => by simpa using List.mem_takeWhile_imp hb)
          rw [List.replicate_succ, List.cons_append, ← h2, h1]
        have hrhead : (List.dropWhile (fun x => x) w).headD false = false :=
          dropWhile_id_headD w
        have hlen : w.length + 1 =
            ((List.takeWhile (fun x => x) w).length + 1) +
              (List.dropWhile (fun x => x) w).length := by
          have := congrArg List.length hsplit
          simpa using this
        have hr := ih (List.dropWhile (fun x => x) w).length
          (by rw [List.length_cons] at hv; omega) (List.dropWhile (fun x => x) w) rfl
        have hzip : nonNRuns (true :: w) =
            (0, (List.takeWhile (fun x => x) w).length) ::
              (nonNRuns (List.dropWhile (fun x => x) w)).map
                (Prod.map (· + ((List.takeWhile (fun x => x) w).length + 1))
                  (· + ((List.takeWhile (fun x => x) w).length + 1))) := by
          rw [hsplit]
          unfold nonNRuns
          rw [risingEdges_false_replicate _ _ hrhead, fallingEdges_replicate _ _ hrhead,
            List.zip_cons_cons]
          congr 1
          exact List.zip_map _ _ _ _
        have hgetD : ∀ i : Nat, (true :: w).getD i false =
            if i < (List.takeWhile (fun x => x) w).length + 1 then true
            else (List.dropWhile (fun x => x) w).getD
              (i - ((List.takeWhile (fun x => x) w).length + 1)) false := by
          intro i
          rw [hsplit]
          exact getD_replicate_append _ _ i
        have hrpos : ∀ p ∈ nonNRuns (List.dropWhile (fun x => x) w), 1 ≤ p.1 := by
          intro p hp
          obtain ⟨h1, h2, h3, _, _⟩ := hr.1 p hp
          by_contra h0
          have h0' : p.1 = 0 := by omega
          have hval := h3 p.1 (le_refl _) h1
          rw [h0', getD_zero_headD, hrhead] at hval
          exact absurd hval (by simp)
        constructor
        · intro p hp
          rw [hzip] at hp
          rcases List.mem_cons.mp hp with rfl | hp'
          · refine ⟨Nat.zero_le _, ?_, ?_, Or.inl rfl, ?_⟩
            · rw [List.length_cons]
              omega
            · intro i hi1 hi2
              rw [hgetD, if_pos (by omega)]
            · right
              rw [hgetD, if_neg (by omega)]
              rw [show (List.takeWhile (fun x => x) w).length + 1 -
                  ((List.takeWhile (fun x => x) w).length + 1) = 0 from by omega]
              rw [getD_zero_headD]
              exact hrhead
          · rw [List.mem_map] at hp'
            obtain ⟨⟨a, c⟩, hq, rfl⟩ := hp'
            obtain ⟨h1, h2, h3, h4, h5⟩ := hr.1 (a, c) hq
            have hapos : 1 ≤ a := hrpos (a, c) hq
            simp only [Prod.map]
            refine ⟨by omega, ?_, ?_, ?_, ?_⟩
            · rw [List.length_cons]
              omega
            · intro i hi1 hi2
              rw [hgetD, if_neg (by omega)]
              exact h3 (i - ((List.takeWhile (fun x => x) w).length + 1)) (by omega) (by omega)
            · right
              rcases h4 with h40 | h4r
              · exact absurd h40 (by omega)
              · rw [hgetD, if_neg (by omega)]
                rw [show a + ((List.takeWhile (fun x => x) w).length + 1) - 1 -
                    ((List.takeWhile (fun x => x) w).length + 1) = a - 1 from by omega]
                exact h4r
            · rcases h5 with h5l | h5r
              · left
                rw [List.length_cons]
                omega
              · right
                rw [hgetD, if_neg (by omega)]
                rw [show c + ((List.takeWhile (fun x => x) w).length + 1) + 1 -
                    ((List.takeWhile (fun x => x) w).length + 1) = c + 1 from by omega]
                exact h5r
        · intro i hi hvalid
          by_cases hik : i < (List.takeWhile (fun x => x) w).length + 1
          · refine ⟨(0, (List.takeWhile (fun x => x) w).length), ?_, by omega, by omega⟩
            rw [hzip]
            exact List.mem_cons_self _ _
          · have hvr : (List.dropWhile (fun x => x) w).getD
                (i - ((List.takeWhile (fun x => x) w).length + 1)) false = true := by
              rw [hgetD, if_neg hik] at hvalid
              exact hvalid
            have hir : i - ((List.takeWhile (fun x => x) w).length + 1) <
                (List.dropWhile (fun x => x) w).length := by
              rw [List.length_cons] at hi
              omega
            obtain ⟨⟨a, c⟩, hq, hq1, hq2⟩ := hr.2 _ hir hvr
            refine ⟨(a + ((List.takeWhile (fun x => x) w).length + 1),
              c + ((List.takeWhile (fun x => x) w).length + 1)), ?_, by omega, by omega⟩
            rw [hzip]
            exact List.mem_cons_of_mem _ (List.mem_map.mpr ⟨(a, c), hq, rfl⟩)

/-- The validity vector computed on line 73 agrees pointwise with testing
the underlying character; the defaults line up because `isValidBase` maps
the default character `N` to `false`. -/
theorem getD_map_isValid (seq : List Char) (i : Nat) :
    (seq.map isValidBase).getD i false = isValidBase (seq.getD i 'N') := by
  induction seq generalizing i with
  | nil => rfl
  | cons c cs ih =>
    cases i with
    | zero => rfl
    | succ m =>
      rw [List.map_cons, List.getD_cons_succ, List.getD_cons_succ]
      exact ih m

/-- C6: every segment the segment engine produces for a chromosome — after
masking the blacklist, the engine's notion of missing data — contains no
missing-data (`N`/`n`) base at any position inside it, and the segments are
exactly the maximal valid runs: each segment is flanked by a missing-data
base or a sequence boundary on both sides (so every missing-data run lies
strictly between segments or at a boundary, never inside one), and every
valid position is inside some segment. -/
theorem segments_are_maximal_valid_runs (chromName : String) (seq : List Char)
    (blacklist : List Interval) :
    (∀ w ∈ makeWhitelistSegmentsChrom chromName seq blacklist,
       ∃ a b : Nat, w.start = (a : Int) ∧ w.stop = (b : Int) ∧ a < b ∧
         b ≤ (maskList seq blacklist).length ∧
         (∀ i : Nat, a ≤ i → i < b →
           isValidBase ((maskList seq blacklist).getD i 'N') = true) ∧
         (a = 0 ∨ isValidBase ((maskList seq blacklist).getD (a - 1) 'N') = false) ∧
         (b = (maskList seq blacklist).length ∨
           isValidBase ((maskList seq blacklist).getD b 'N') = false))
    ∧ (∀ i : Nat, i < (maskList seq blacklist).length →
         isValidBase ((maskList seq blacklist).getD i 'N') = true →
         ∃ w ∈ makeWhitelistSegmentsChrom chromName seq blacklist,
           w.start ≤ (i : Int) ∧ (i : Int) < w.stop) := by
  have hspec := nonNRuns_spec ((maskList seq blacklist).map isValidBase).length
    ((maskList seq blacklist).map isValidBase) rfl
  have hvlen : ((maskList seq blacklist).map isValidBase).length =
      (maskList seq blacklist).length := List.length_map _ _
  constructor
  · intro w hw
    unfold makeWhitelistSegmentsChrom findNonN at hw
    rw [List.mem_map] at hw
    obtain ⟨p, hp, rfl⟩ := hw
    obtain ⟨h1, h2, h3, h4, h5⟩ := hspec.1 p hp
    refine ⟨p.1, p.2 + 1, rfl, ?_, by omega, by omega, ?_, ?_, ?_⟩
    · show ((p.2 : Int) + 1) = ((p.2 + 1 : Nat) : Int)
      push_cast
      ring
    · intro i hi1 hi2
      have := h3 i hi1 (by omega)
      rw [getD_map_isValid] at this
      exact this
    · rcases h4 with h40 | h4r
      · exact Or.inl h40
      · right
        rw [getD_map_isValid] at h4r
        exact h4r
    · rcases h5 with h5l | h5r
      · left
        omega
      · right
        rw [getD_map_isValid] at h5r
        exact h5r
  · intro i hi hvalid
    have hvalid' : ((maskList seq blacklist).map isValidBase).getD i false = true := by
      rw [getD_map_isValid]
      exact hvalid
    obtain ⟨p, hp, hp1, hp2⟩ := hspec.2 i (by omega) hvalid'
    refine ⟨⟨chromName, (p.1 : Int), (p.2 : Int) + 1⟩, ?_, ?_, ?_⟩
    · unfold makeWhitelistSegmentsChrom findNonN
      exact List.mem_map.mpr ⟨p, hp, rfl⟩
    · show (p.1 : Int) ≤ (i : Int)
      omega
    · show (i : Int) < (p.2 : Int) + 1
      omega

/-- Witness for C6: on the masked chromosome `ANC` (no blacklist) the valid
base at position 2 lies inside a produced segment. -/
theorem segments_are_maximal_valid_runs_witness :
    ∃ w ∈ makeWhitelistSegmentsChrom "chr" ['A', 'N', 'C'] [],
      w.start ≤ (2 : Int) ∧ (2 : Int) < w.stop :=
  (segments_are_maximal_valid_runs "chr" ['A', 'N', 'C'] []).2 2 (by decide) (by decide)

/-- Masking never changes the sequence length (numpy slice assignment is in
place). -/
theorem maskInterval_length (seq : List Char) (b : Interval) :
    (maskInterval seq b).length = seq.length := by
  unfold maskInterval
  split_ifs
  · rfl
  · exact List.length_mapIdx

/-- Masking one interval is insensitive to clamping its end to the sequence
length, because the code itself takes `min(length, end)`. -/
theorem maskInterval_clamp (seq : List Char) (b : Interval)
    (hb : ¬ ((seq.length : Int) ≤ b.start)) :
    maskInterval seq ⟨b.chrom, b.start, min b.stop (seq.length : Int)⟩ =
      maskInterval seq b := by
  unfold maskInterval
  rw [if_neg hb, if_neg hb]
  have hmin : min ((seq.length : Nat) : Int) (min b.stop (seq.length : Int)) =
      min ((seq.length : Nat) : Int) b.stop := by
    omega
  rw [hmin]

/-- Folding the mask over a blacklist equals folding it over the blacklist
clamped to the (invariant) sequence length: skipped intervals are exactly
the ones the code skips with `continue`, truncated ends are exactly the
code's `min(length, end)`. -/
theorem maskList_clamp (n : Nat) : ∀ (blacklist : List Interval) (seq : List Char),
    seq.length = n →
    maskList seq blacklist = maskList seq (blacklist.filterMap (fun b =>
      if (n : Int) ≤ b.start then none
      else some ⟨b.chrom, b.start, min b.stop (n : Int)⟩)) := by
  intro blacklist
  induction blacklist with
  | nil =>
    intro seq _
    rfl
  | cons b bl ih =>
    intro seq hlen
    subst hlen
    rw [List.filterMap_cons]
    by_cases hb : ((seq.length : Nat) : Int) ≤ b.start
    · rw [if_pos hb]
      have hskip : maskInterval seq b = seq := by
        unfold maskInterval
        rw [if_pos hb]
      show maskList (maskInterval seq b) bl = _
      rw [hskip]
      exact ih seq rfl
    · rw [if_neg hb]
      show maskList (maskInterval seq b) bl =
        maskList (maskInterval seq ⟨b.chrom, b.start, min b.stop (seq.length : Int)⟩) _
      rw [maskInterval_clamp seq b hb]
      exact ih (maskInterval seq b) (maskInterval_length seq b)

/-- When chromosome names are unique, `chromLength` returns the length of
the member sequence. -/
theorem chromLength_of_mem (genome : List (String × List Char)) (c : String)
    (seq : List Char) (hmem : (c, seq) ∈ genome)
    (hnodup : (genome.map Prod.fst).Nodup) :
    chromLength genome c = (seq.length : Int) := by
  induction genome with
  | nil => exact absurd hmem (List.not_mem_nil _)
  | cons g gs ih =>
    rw [List.map_cons, List.nodup_cons] at hnodup
    rcases List.mem_cons.mp hmem with rfl | hmem'
    · unfold chromLength
      rw [List.find?_cons_of_pos _ (by simp)]
      rfl
    · by_cases hgc : g.1 = c
      · exfalso
        apply hnodup.1
        rw [hgc]
        exact List.mem_map.mpr ⟨(c, seq), hmem', rfl⟩
      · unfold chromLength
        rw [List.find?_cons_of_neg _ (by simpa using hgc)]
        exact ih hmem' hnodup.2

/-- Filtering the clamped blacklist down to one chromosome is clamping the
filtered blacklist, because clamping preserves the chromosome name. -/
theorem filter_clampBlacklist (genome : List (String × List Char))
    (blacklist : List Interval) (c : String) :
    (clampBlacklist genome blacklist).filter (fun b => b.chrom == c) =
      (blacklist.filter (fun b => b.chrom == c)).filterMap (fun b =>
        if chromLength genome b.chrom ≤ b.start then none
        else some ⟨b.chrom, b.start, min b.stop (chromLength genome b.chrom)⟩) := by
  induction blacklist with
  | nil => rfl
  | cons b bl ih =>
    unfold clampBlacklist at ih ⊢
    rw [List.filterMap_cons, List.filter_cons]
    by_cases hL : chromLength genome b.chrom ≤ b.start
    · rw [if_pos hL]
      by_cases hc : b.chrom == c
      · rw [if_pos hc, List.filterMap_cons, if_pos hL]
        exact ih
      · rw [if_neg (by simpa using hc)]
        exact ih
    · rw [if_neg hL]
      by_cases hc : b.chrom == c
      · rw [List.filter_cons, if_pos (by simpa using hc), if_pos hc,
          List.filterMap_cons, if_neg hL]
        rw [ih]
      · rw [List.filter_cons, if_neg (by simpa using hc), if_neg (by simpa using hc)]
        exact ih

/-- C10: `makeWhitelistSegments` on a genome with distinct chromosome names
gives the same segments for a blacklist and for that blacklist clamped to
chromosome bounds: intervals starting at or past the chromosome end are
ignored, ends beyond the chromosome are truncated — an out-of-bounds
blacklist interval never makes the call fail.  (`0 ≤ b.start` is the BED
coordinate invariant under which the model is faithful to numpy slicing.) -/
theorem makeWhitelistSegments_blacklist_clamp (genome : List (String × List Char))
    (blacklist : List Interval)
    (hnodup : (genome.map Prod.fst).Nodup)
    (hpos : ∀ b ∈ blacklist, 0 ≤ b.start) :
    makeWhitelistSegments genome blacklist =
      makeWhitelistSegments genome (clampBlacklist genome blacklist) := by
  unfold makeWhitelistSegments
  congr 1
  apply List.map_congr_left
  intro g hg
  unfold makeWhitelistSegmentsChrom
  congr 1
  rw [filter_clampBlacklist genome blacklist g.1]
  have hcl : chromLength genome g.1 = (g.2.length : Int) :=
    chromLength_of_mem genome g.1 g.2 (by simpa using hg) hnodup
  have hfun : (blacklist.filter (fun b => b.chrom == g.1)).filterMap (fun b =>
      (if chromLength genome b.chrom ≤ b.start then none
       else some ⟨b.chrom, b.start, min b.stop (chromLength genome b.chrom)⟩ : Option Interval)) =
    (blacklist.filter (fun b => b.chrom == g.1)).filterMap (fun b =>
      (if ((g.2.length : Nat) : Int) ≤ b.start then none
       else some ⟨b.chrom, b.start, min b.stop ((g.2.length : Nat) : Int)⟩ : Option Interval)) := by
    apply List.filterMap_congr
    intro b hb
    have hbc : b.chrom = g.1 := by simpa using (List.mem_filter.mp hb).2
    rw [hbc, hcl]
  rw [hfun]
  exact maskList_clamp g.2.length (blacklist.filter (fun b => b.chrom == g.1)) g.2 rfl

/-- Witness for C10 on a concrete genome and a blacklist interval whose end
runs past its chromosome. -/
theorem makeWhitelistSegments_blacklist_clamp_witness :
    makeWhitelistSegments [("chr1", ['A', 'C', 'G'])] [⟨"chr1", 1, 10⟩] =
      makeWhitelistSegments [("chr1", ['A', 'C', 'G'])]
        (clampBlacklist [("chr1", ['A', 'C', 'G'])] [⟨"chr1", 1, 10⟩]) :=
  makeWhitelistSegments_blacklist_clamp [("chr1", ['A', 'C', 'G'])] [⟨"chr1", 1, 10⟩]
    (by decide) (by decide)

/-- Closed form of the `addQuery` drain loop: it empties the output queue
into the deque (reversing, since `appendleft` mirrors FIFO order) and
adjusts both counters by the number of items moved. -/
theorem drainOut_spec (oq : List CountResult) :
    ∀ (dq : List CountResult) (fl nid : Int),
      drainOut oq dq fl nid =
        ⟨[], oq.reverse ++ dq, fl - oq.length, nid + oq.length⟩ := by
  induction oq with
  | nil =>
    intro dq fl nid
    simp [drainOut]
  | cons r rest ih =>
    intro dq fl nid
    show drainOut rest (r :: dq) (fl - 1) (nid + 1) = _
    rw [ih]
    have h1 : rest.reverse ++ (r :: dq) = (r :: rest).reverse ++ dq := by
      simp [List.append_assoc]
    have h2 : (fl - 1) - (rest.length : Int) = fl - ((r :: rest).length : Int) := by
      simp only [List.length_cons]
      push_cast
      ring
    have h3 : (nid + 1) + (rest.length : Int) = nid + ((r :: rest).length : Int) := by
      simp only [List.length_cons]
      push_cast
      ring
    rw [h1, h2, h3]

/-- Closed form of the worker flush loop when the counter matches the deque
length (the protocol invariant): the deque empties into the output queue,
oldest first. -/
theorem workerFlushAux_spec (buf : List CountResult) :
    ∀ outQ : List CountResult,
      workerFlushAux buf.length buf (buf.length : Int) outQ = ([], 0, outQ ++ buf.reverse) := by
  induction buf using List.reverseRecOn with
  | nil =>
    intro outQ
    simp [workerFlushAux]
  | append_singleton init r ih =>
    intro outQ
    have hlen : (init ++ [r]).length = init.length + 1 := by simp
    rw [hlen]
    show workerFlushAux (init.length + 1) (init ++ [r]) _ outQ = _
    rw [workerFlushAux ]
    rw [if_pos (by omega), List.getLast?_concat]
    show workerFlushAux init.length (init ++ [r]).dropLast
      (((init.length + 1 : Nat) : Int) - 1) (outQ ++ [r]) = _
    rw [List.dropLast_concat]
    rw [show ((init.length + 1 : Nat) : Int) - 1 = ((init.length : Nat) : Int) from by
      push_cast; ring]
    rw [ih (outQ ++ [r])]
    simp [List.append_assoc]

/-- The flush loop at the invariant counter value. -/
theorem workerFlush_eq (buf : List CountResult) (outQ : List CountResult) :
    workerFlush buf (buf.length : Int) outQ = ([], 0, outQ ++ buf.reverse) := by
  unfold workerFlush
  rw [Int.toNat_natCast]
  exact workerFlushAux_spec buf outQ

/-- A worker with an empty deque pushes exactly its one fresh result. -/
theorem workerPushOp_empty (f : Nat → Int) (q : Query) (outQ : List CountResult) :
    workerPushOp f q [] 0 outQ = ([], 0, outQ ++ [procQ f q]) := by
  have h := workerFlush_eq [procQ f q] outQ
  simp only [List.length_cons, List.length_nil, List.reverse_cons, List.reverse_nil,
    List.nil_append, Nat.cast_one] at h
  unfold workerPushOp
  rw [show (0 : Int) + 1 = 1 from by ring]
  exact h

/-- An exited worker flushed nothing (its deque was already empty). -/
theorem workerFinalFlush_nil (n : Int) (outQ : List CountResult) :
    workerFinalFlush [] n outQ = outQ := rfl

/-- Popping the oldest element of a non-empty deque and prepending it to the
remaining (reversed) deque reconstructs the reversed deque. -/
theorem getLast_toList_reverse (l : List CountResult) (h : l ≠ []) :
    l.getLast?.toList ++ l.dropLast.reverse = l.reverse := by
  rw [List.getLast?_eq_getLast l h]
  have h2 : l.dropLast ++ [l.getLast h] = l := List.dropLast_append_getLast h
  calc (some (l.getLast h)).toList ++ l.dropLast.reverse
      = (l.dropLast ++ [l.getLast h]).reverse := by
        simp [List.reverse_append]
    _ = l.reverse := by rw [h2]

/-- Appending a submission to the input queue appends it to the pending
queries. -/
theorem queueQueries_append_some (inQ : List (Option Query)) (q : Query) :
    queueQueries (inQ ++ [some q]) = queueQueries inQ ++ [q] := by
  simp [queueQueries]

/-- A sentinel at the head of the queue is not a query. -/
theorem queueQueries_cons_none (inQ : List (Option Query)) :
    queueQueries (none :: inQ) = queueQueries inQ := by
  simp [queueQueries]

/-- A query at the head of the queue. -/
theorem queueQueries_cons_some (q : Query) (inQ : List (Option Query)) :
    queueQueries (some q :: inQ) = q :: queueQueries inQ := by
  simp [queueQueries]

/-- Sentinels broadcast by `done` add no queries. -/
theorem queueQueries_append_replicate_none (inQ : List (Option Query)) (k : Nat) :
    queueQueries (inQ ++ List.replicate k none) = queueQueries inQ := by
  induction k with
  | zero => simp
  | succ m ih =>
    rw [List.replicate_succ]
    simp only [queueQueries, List.filterMap_append] at ih ⊢
    simpa using ih

/-- Concatenating a per-worker attribute that is empty on every worker
yields the empty list. -/
theorem flatten_map_nil {A : Type} (g : WorkerState → List A) (ws : List WorkerState)
    (h : ∀ w ∈ ws, g w = []) :
    (ws.map g).flatten = [] := by
  induction ws with
  | nil => rfl
  | cons w rest ih =>
    rw [List.map_cons, List.flatten_cons, h w (List.mem_cons_self _ _),
      List.nil_append]
    exact ih (fun x hx => h x (List.mem_cons_of_mem _ hx))

/-- Finished-worker count distributes over append. -/
theorem countFinished_append (a b : List WorkerState) :
    countFinished (a ++ b) = countFinished a + countFinished b := by
  simp [countFinished, List.filter_append]

/-- Finished-worker count of a cons. -/
theorem countFinished_cons (w : WorkerState) (ws : List WorkerState) :
    countFinished (w :: ws) = (if isFinished w then 1 else 0) + countFinished ws := by
  simp only [countFinished, List.filter_cons]
  split_ifs <;> simp [Nat.add_comm]

/-- `addQuery` preserves the ordered system content exactly: the submitted
query moves from the head of the client script to the tail of the input
queue, and drained results move from the output queue to the deque without
reordering. -/
theorem sysList_addQueryOp (f : Nat → Int) (s : CounterState) (q : Query)
    (rest : List Query) (hp : s.pending = q :: rest) :
    sysList f (addQueryOp s q rest) = sysList f s := by
  unfold sysList addQueryOp
  rw [drainOut_spec]
  simp [hp, queueQueries, List.filterMap_append, List.reverse_append, List.append_assoc]

/-- The blocking fill of `getResult` preserves the ordered system content
exactly. -/
theorem sysList_fillOp (f : Nat → Int) (s : CounterState) (r : CountResult)
    (restQ : List CountResult) (hq : s.outQueue = r :: restQ) :
    sysList f (fillOp s r restQ) = sysList f s := by
  unfold sysList fillOp
  rw [hq]
  simp [List.append_assoc]

/-- The deque pop of `getResult` preserves the ordered system content
exactly: the popped element is the oldest, which is adjacent to the already
returned results. -/
theorem sysList_popOp (f : Nat → Int) (s : CounterState) (hne : s.outDeque ≠ []) :
    sysList f (popOp s) = sysList f s := by
  obtain ⟨init, a, hdq⟩ : ∃ init a, s.outDeque = init ++ [a] := by
    rcases List.eq_nil_or_concat s.outDeque with h0 | ⟨L, b, hb⟩
    · exact absurd h0 hne
    · exact ⟨L, b, by simpa [List.concat_eq_append] using hb⟩
  unfold sysList popOp
  rw [hdq, List.getLast?_concat, List.dropLast_concat]
  simp [List.reverse_append, List.append_assoc]

/-- `done` preserves the ordered system content exactly: sentinels are not
queries. -/
theorem sysList_doneOp (f : Nat → Int) (s : CounterState) (k : Nat) :
    sysList f { s with
      doneSent := true,
      inQueue := s.inQueue ++ List.replicate k none } = sysList f s := by
  unfold sysList
  rw [queueQueries_append_replicate_none]

/-- A worker consuming the sentinel preserves the ordered system content
exactly (its deque is empty, so the terminal flush is a no-op). -/
theorem sysList_workerSentinel (f : Nat → Int) (s : CounterState)
    (restQ : List (Option Query)) (w1 w2 : List WorkerState) (n : Int)
    (hq : s.inQueue = none :: restQ)
    (hw : s.workers = w1 ++ WorkerState.idle [] n :: w2) :
    sysList f { s with
      inQueue := restQ,
      outQueue := workerFinalFlush [] n s.outQueue,
      workers := w1 ++ WorkerState.finished :: w2 } = sysList f s := by
  unfold sysList
  rw [workerFinalFlush_nil, hq, hw, queueQueries_cons_none]
  simp [wbuf, wheld, List.map_append, List.flatten_append]

/-- A repeated empty list flattens to nothing. -/
theorem flatten_replicate_nil {A : Type} (k : Nat) :
    (List.replicate k ([] : List A)).flatten = [] := by
  induction k with
  | zero => rfl
  | succ m ih =>
    rw [List.replicate_succ, List.flatten_cons, List.nil_append]
    exact ih

/-- No worker of a freshly constructed pool has exited. -/
theorem countFinished_replicate_idle (W : Nat) :
    countFinished (List.replicate W (WorkerState.idle [] 0)) = 0 := by
  induction W with
  | zero => rfl
  | succ m ih =>
    rw [List.replicate_succ, countFinished_cons, ih]
    rfl

/-- The invariant of the protocol at the moment the pool is constructed. -/
theorem initState_inv (f : Nat → Int) (subs : List Query) (W : Nat) :
    Inv f subs W (initState subs W) := by
  have heq : sysList f (initState subs W) = subs.map (procQ f) := by
    unfold sysList initState
    simp [queueQueries, wbuf, wheld, flatten_replicate_nil]
  refine ⟨?_, ?_, ?_, ?_, ?_, ?_, ?_⟩
  · rw [heq]
  · intro _
    exact heq
  · simp [initState]
  · simp [initState, queueQueries, wbuf, wheld, flatten_replicate_nil]
  · intro w hw
    rw [List.eq_of_mem_replicate hw]
    exact ⟨rfl, rfl⟩
  · simp [initState]
  · simp [initState, countFinished_replicate_idle]

/-- Every step of the system preserves the master invariant. -/
theorem step_preserves_inv (f : Nat → Int) (subs : List Query) (W : Nat)
    (s s' : CounterState) (hstep : Step f s s') (hinv : Inv f subs W s) :
    Inv f subs W s' := by
  obtain ⟨hcons, hord, hdeq, hflight, hbufs, hwlen, hsent⟩ := hinv
  cases hstep with
  | addQuery q rest hp =>
    have hsys := sysList_addQueryOp f s q rest hp
    refine ⟨?_, ?_, ?_, ?_, ?_, ?_, ?_⟩
    · rw [hsys]
      exact hcons
    · intro hW
      rw [hsys]
      exact hord hW
    · simp only [addQueryOp, drainOut_spec]
      simp only [List.length_append, List.length_reverse]
      push_cast
      omega
    · simp only [addQueryOp, drainOut_spec]
      simp only [queueQueries_append_some, List.length_append, List.length_nil,
        List.length_cons]
      push_cast
      push_cast at hflight
      omega
    · exact hbufs
    · exact hwlen
    · simp only [addQueryOp, drainOut_spec]
      simp only [List.count_append]
      simpa using hsent
  | getResultFill r restQ hfl hnid hq =>
    have hsys : sysList f (popOp (fillOp s r restQ)) = sysList f s := by
      rw [sysList_popOp f (fillOp s r restQ) (by simp [fillOp]), sysList_fillOp f s r restQ hq]
    refine ⟨?_, ?_, ?_, ?_, ?_, ?_, ?_⟩
    · rw [hsys]
      exact hcons
    · intro hW
      rw [hsys]
      exact hord hW
    · simp only [popOp, fillOp]
      simp only [List.length_dropLast, List.length_cons]
      push_cast
      push_cast at hdeq
      omega
    · simp only [popOp, fillOp]
      rw [hq] at hflight
      simp only [List.length_cons] at hflight
      push_cast at hflight
      push_cast
      omega
    · exact hbufs
    · exact hwlen
    · exact hsent
  | getResultPop hguard hne =>
    have hsys := sysList_popOp f s hne
    have hlen : 1 ≤ s.outDeque.length := by
      cases h : s.outDeque with
      | nil => exact absurd h hne
      | cons a l => simp [h]
    refine ⟨?_, ?_, ?_, ?_, ?_, ?_, ?_⟩
    · rw [hsys]
      exact hcons
    · intro hW
      rw [hsys]
      exact hord hW
    · simp only [popOp, List.length_dropLast]
      push_cast
      push_cast at hdeq
      omega
    · exact hflight
    · exact hbufs
    · exact hwlen
    · exact hsent
  | workerTake q restQ w1 w2 buf n hq hw =>
    have hmem : WorkerState.idle buf n ∈ s.workers := by
      rw [hw]
      exact List.mem_append_right _ (List.mem_cons_self _ _)
    have hb := hbufs _ hmem
    simp only [wbuf, wcount] at hb
    obtain ⟨rfl, rfl⟩ := hb
    have hperm : List.Perm
        (sysList f { s with
          inQueue := restQ,
          workers := w1 ++ WorkerState.busy q [] 0 :: w2 }) (sysList f s) := by
      rw [← Multiset.coe_eq_coe]
      unfold sysList
      rw [hq, hw]
      simp only [queueQueries_cons_some, wbuf, wheld, List.map_append, List.map_cons,
        List.flatten_append, List.flatten_cons, List.map_nil, List.flatten_nil,
        List.nil_append, List.append_nil, List.append_assoc, List.singleton_append]
      simp only [← Multiset.coe_add, ← Multiset.cons_coe, ← Multiset.singleton_add]
      abel
    refine ⟨hperm.trans hcons, ?_, hdeq, ?_, ?_, ?_, ?_⟩
    · intro hW
      have hlen1 : w1.length + (w2.length + 1) = W := by
        rw [← hwlen, hw]
        simp [Nat.add_comm]
      have hw1 : w1 = [] := List.length_eq_zero.mp (by omega)
      have hw2 : w2 = [] := List.length_eq_zero.mp (by omega)
      subst hw1
      subst hw2
      have heq : sysList f { s with
          inQueue := restQ,
          workers := [] ++ WorkerState.busy q [] 0 :: [] } = sysList f s := by
        unfold sysList
        rw [hq, hw]
        simp [queueQueries_cons_some, wbuf, wheld, List.append_assoc]
      rw [heq]
      exact hord hW
    · rw [hq, hw] at hflight
      simp only [queueQueries_cons_some, wbuf, wheld, List.map_append, List.map_cons,
        List.flatten_append, List.flatten_cons, List.map_nil, List.flatten_nil,
        List.nil_append, List.append_nil, List.length_append, List.length_cons,
        List.length_nil] at hflight ⊢
      push_cast at hflight ⊢
      omega
    · intro w hwm
      rcases List.mem_append.mp hwm with h1 | h2
      · exact hbufs w (by rw [hw]; exact List.mem_append_left _ h1)
      · rcases List.mem_cons.mp h2 with rfl | h3
        · exact ⟨rfl, rfl⟩
        · exact hbufs w (by rw [hw]; exact List.mem_append_right _ (List.mem_cons_of_mem _ h3))
    · rw [← hwlen, hw]
      simp
    · rw [hq, hw] at hsent
      simp only [List.count_cons, List.count_append, countFinished_append,
        countFinished_cons, isFinished] at hsent ⊢
      simpa using hsent
  | workerPush q w1 w2 buf n hw =>
    have hmem : WorkerState.busy q buf n ∈ s.workers := by
      rw [hw]
      exact List.mem_append_right _ (List.mem_cons_self _ _)
    have hb := hbufs _ hmem
    simp only [wbuf, wcount] at hb
    obtain ⟨rfl, rfl⟩ := hb
    rw [workerPushOp_empty]
    have hperm : List.Perm
        (sysList f { s with
          outQueue := s.outQueue ++ [procQ f q],
          workers := w1 ++ WorkerState.idle [] 0 :: w2 }) (sysList f s) := by
      rw [← Multiset.coe_eq_coe]
      unfold sysList
      rw [hw]
      simp only [wbuf, wheld, List.map_append, List.map_cons,
        List.flatten_append, List.flatten_cons, List.map_nil, List.flatten_nil,
        List.nil_append, List.append_nil, List.append_assoc, List.singleton_append]
      simp only [← Multiset.coe_add, ← Multiset.cons_coe, ← Multiset.singleton_add]
      abel
    refine ⟨hperm.trans hcons, ?_, hdeq, ?_, ?_, ?_, ?_⟩
    · intro hW
      have hlen1 : w1.length + (w2.length + 1) = W := by
        rw [← hwlen, hw]
        simp [Nat.add_comm]
      have hw1 : w1 = [] := List.length_eq_zero.mp (by omega)
      have hw2 : w2 = [] := List.length_eq_zero.mp (by omega)
      subst hw1
      subst hw2
      have heq : sysList f { s with
          outQueue := s.outQueue ++ [procQ f q],
          workers := [] ++ WorkerState.idle [] 0 :: [] } = sysList f s := by
        unfold sysList
        rw [hw]
        simp [wbuf, wheld, List.append_assoc]
      rw [heq]
      exact hord hW
    · rw [hw] at hflight
      simp only [wbuf, wheld, List.map_append, List.map_cons,
        List.flatten_append, List.flatten_cons, List.map_nil, List.flatten_nil,
        List.nil_append, List.append_nil, List.length_append, List.length_cons,
        List.length_nil] at hflight ⊢
      push_cast at hflight ⊢
      omega
    · intro w hwm
      rcases List.mem_append.mp hwm with h1 | h2
      · exact hbufs w (by rw [hw]; exact List.mem_append_left _ h1)
      · rcases List.mem_cons.mp h2 with rfl | h3
        · exact ⟨rfl, rfl⟩
        · exact hbufs w (by rw [hw]; exact List.mem_append_right _ (List.mem_cons_of_mem _ h3))
    · rw [← hwlen, hw]
      simp
    · rw [hw] at hsent
      simp only [countFinished_append, countFinished_cons, isFinished] at hsent ⊢
      exact hsent
  | workerSentinel restQ w1 w2 buf n hq hw =>
    have hmem : WorkerState.idle buf n ∈ s.workers := by
      rw [hw]
      exact List.mem_append_right _ (List.mem_cons_self _ _)
    have hb := hbufs _ hmem
    simp only [wbuf, wcount] at hb
    obtain ⟨rfl, rfl⟩ := hb
    have hsys := sysList_workerSentinel f s restQ w1 w2 0 hq hw
    refine ⟨?_, ?_, hdeq, ?_, ?_, ?_, ?_⟩
    · rw [hsys]
      exact hcons
    · intro hW
      rw [hsys]
      exact hord hW
    · rw [workerFinalFlush_nil]
      rw [hq, hw] at hflight
      simp only [queueQueries_cons_none, wbuf, wheld, List.map_append, List.map_cons,
        List.flatten_append, List.flatten_cons, List.map_nil, List.flatten_nil,
        List.nil_append, List.append_nil, List.length_append, List.length_cons,
        List.length_nil] at hflight ⊢
      push_cast at hflight ⊢
      omega
    · intro w hwm
      rcases List.mem_append.mp hwm with h1 | h2
      · exact hbufs w (by rw [hw]; exact List.mem_append_left _ h1)
      · rcases List.mem_cons.mp h2 with rfl | h3
        · exact ⟨rfl, rfl⟩
        · exact hbufs w (by rw [hw]; exact List.mem_append_right _ (List.mem_cons_of_mem _ h3))
    · rw [← hwlen, hw]
      simp
    · rw [hq, hw] at hsent
      simp only [List.count_cons, List.count_append, countFinished_append,
        countFinished_cons, isFinished] at hsent ⊢
      simp at hsent ⊢
      omega
  | doneStep hd hp =>
    have hsys := sysList_doneOp f s s.workers.length
    refine ⟨?_, ?_, hdeq, ?_, hbufs, hwlen, ?_⟩
    · rw [hsys]
      exact hcons
    · intro hW
      rw [hsys]
      exact hord hW
    · simp only [queueQueries_append_replicate_none]
      exact hflight
    · rw [hd] at hsent
      simp only [List.count_append, List.count_replicate, hwlen] at hsent ⊢
      simp at hsent
      simp [hsent.1, hsent.2, hwlen]

/-- The master invariant holds in every reachable state. -/
theorem reaches_inv (f : Nat → Int) (subs : List Query) (W : Nat)
    (s : CounterState) (hr : Reaches f (initState subs W) s) :
    Inv f subs W s := by
  induction hr with
  | refl => exact initState_inv f subs W
  | tail hab hbc ih => exact step_preserves_inv f subs W _ _ hbc ih

/-- A pool with fewer exited workers than members contains a worker that has
not exited. -/
theorem exists_not_finished (ws : List WorkerState)
    (h : countFinished ws < ws.length) :
    ∃ w1 w w2, ws = w1 ++ w :: w2 ∧ isFinished w = false := by
  induction ws with
  | nil => simp [countFinished] at h
  | cons w rest ih =>
    cases hf : isFinished w
    · exact ⟨[], w, rest, rfl, hf⟩
    · rw [countFinished_cons, hf, List.length_cons] at h
      simp at h
      obtain ⟨w1, w', w2, heq, hnf⟩ := ih (by omega)
      exact ⟨w :: w1, w', w2, by rw [heq]; rfl, hnf⟩

/-- Busy-worker count distributes over append. -/
theorem busyCount_append (a b : List WorkerState) :
    busyCount (a ++ b) = busyCount a + busyCount b := by
  simp [busyCount, List.filter_append]

/-- Busy-worker count of a cons. -/
theorem busyCount_cons (w : WorkerState) (ws : List WorkerState) :
    busyCount (w :: ws) = (if isBusy w then 1 else 0) + busyCount ws := by
  simp only [busyCount, List.filter_cons]
  split_ifs <;> simp [Nat.add_comm]

/-- After `done` has broadcast the sentinels, the system can always run on
until every worker has exited and no sentinel is left: while a sentinel
remains unconsumed, some worker is still alive (the sentinel count equals
the number of live workers), and that worker can always push its pending
result, take the next queue item, or consume a sentinel and exit. -/
theorem shutdown_liveness (f : Nat → Int) (subs : List Query) (W : Nat) :
    ∀ (m : Nat) (s : CounterState),
      2 * s.inQueue.length + busyCount s.workers ≤ m →
      Inv f subs W s → s.doneSent = true →
      ∃ s', Reaches f s s' ∧ countFinished s'.workers = W ∧
        s'.inQueue.count none = 0 ∧ s'.workers.length = W := by
  intro m
  induction m with
  | zero =>
    intro s hm hinv hdone
    have hq0 : s.inQueue.length = 0 := by omega
    have hqnil : s.inQueue = [] := List.length_eq_zero.mp hq0
    have hsent := hinv.sentinels
    rw [hdone, hqnil] at hsent
    simp at hsent
    exact ⟨s, Relation.ReflTransGen.refl, by omega, by rw [hqnil]; rfl, hinv.wlen⟩
  | succ m ih =>
    intro s hm hinv hdone
    by_cases hnone : s.inQueue.count none = 0
    · have hsent := hinv.sentinels
      rw [hdone] at hsent
      simp at hsent
      exact ⟨s, Relation.ReflTransGen.refl, by omega, hnone, hinv.wlen⟩
    · have hsent := hinv.sentinels
      rw [hdone] at hsent
      simp at hsent
      have hcf : countFinished s.workers < W := by omega
      obtain ⟨w1, w, w2, hw, hnf⟩ :=
        exists_not_finished s.workers (by rw [hinv.wlen]; exact hcf)
      cases w with
      | finished => simp [isFinished] at hnf
      | busy q buf n =>
        have hstep := Step.workerPush (f := f) s q w1 w2 buf n hw
        have hinv' := step_preserves_inv f subs W _ _ hstep hinv
        have hmeas : 2 * s.inQueue.length +
            busyCount (w1 ++ WorkerState.idle (workerPushOp f q buf n s.outQueue).1
              (workerPushOp f q buf n s.outQueue).2.1 :: w2) ≤ m := by
          rw [hw] at hm
          rw [busyCount_append, busyCount_cons] at hm ⊢
          simp [isBusy] at hm ⊢
          omega
        obtain ⟨s', hr', hfin', hnone', hlen'⟩ := ih _ hmeas hinv' hdone
        exact ⟨s', Relation.ReflTransGen.head hstep hr', hfin', hnone', hlen'⟩
      | idle buf n =>
        have hqne : s.inQueue ≠ [] := by
          intro h0
          rw [h0] at hnone
          exact hnone rfl
        rcases hqhead : s.inQueue with _ | ⟨mhead, restQ⟩
        · exact absurd hqhead hqne
        · cases mhead with
          | some q =>
            have hstep := Step.workerTake (f := f) s q restQ w1 w2 buf n hqhead hw
            have hinv' := step_preserves_inv f subs W _ _ hstep hinv
            have hmeas : 2 * restQ.length +
                busyCount (w1 ++ WorkerState.busy q buf n :: w2) ≤ m := by
              rw [hw] at hm
              rw [hqhead, List.length_cons] at hm
              rw [busyCount_append, busyCount_cons] at hm ⊢
              simp [isBusy] at hm ⊢
              omega
            obtain ⟨s', hr', hfin', hnone', hlen'⟩ := ih _ hmeas hinv' hdone
            exact ⟨s', Relation.ReflTransGen.head hstep hr', hfin', hnone', hlen'⟩
          | none =>
            have hstep := Step.workerSentinel (f := f) s restQ w1 w2 buf n hqhead hw
            have hinv' := step_preserves_inv f subs W _ _ hstep hinv
            have hmeas : 2 * restQ.length +
                busyCount (w1 ++ WorkerState.finished :: w2) ≤ m := by
              rw [hw] at hm
              rw [hqhead, List.length_cons] at hm
              rw [busyCount_append, busyCount_cons] at hm ⊢
              simp [isBusy] at hm ⊢
              omega
            obtain ⟨s', hr', hfin', hnone', hlen'⟩ := ih _ hmeas hinv' hdone
            exact ⟨s', Relation.ReflTransGen.head hstep hr', hfin', hnone', hlen'⟩

/-- C2: exactly-once delivery.  In any reachable state of a run over the
submission list `subs` in which the client has retrieved as many results as
it submitted queries, the multiset of opaque indices of the returned
results equals the multiset of submitted indices: every submitted query
yielded exactly one result, with no duplicates and no losses (the model
assumes no worker failure: queue timeouts never fire). -/
theorem parallelCounter_exactly_once (f : Nat → Int) (subs : List Query) (W : Nat)
    (s : CounterState) (hr : Reaches f (initState subs W) s)
    (hall : s.returned.length = subs.length) :
    (s.returned.map CountResult.idx : Multiset Nat) =
      (subs.map Query.idx : Multiset Nat) := by
  have hinv := reaches_inv f subs W s hr
  have hperm := hinv.conserve
  set R : List CountResult := s.outDeque.reverse ++ (s.outQueue ++
    ((s.workers.map wbuf).flatten ++ (((s.workers.map wheld).flatten).map (procQ f) ++
    ((queueQueries s.inQueue).map (procQ f) ++ s.pending.map (procQ f))))) with hRdef
  have hform : sysList f s = s.returned ++ R := by
    rw [hRdef]
    simp [sysList, List.append_assoc]
  have hlen := hperm.length_eq
  rw [hform, List.length_append, List.length_map] at hlen
  have hR0 : R.length = 0 := by omega
  have hRnil : R = [] := List.length_eq_zero.mp hR0
  rw [hRnil, List.append_nil] at hform
  have hperm2 : List.Perm s.returned (subs.map (procQ f)) := hform ▸ hperm
  have hperm3 := hperm2.map CountResult.idx
  rw [List.map_map] at hperm3
  have hmapeq : subs.map (CountResult.idx ∘ procQ f) = subs.map Query.idx := by
    apply List.map_congr_left
    intro a _
    rfl
  rw [hmapeq] at hperm3
  exact Multiset.coe_eq_coe.mpr hperm3

/-- C4 (amended): with a single worker the dispatcher is FIFO end to end —
in any complete run the results come back exactly in submission order, so
per-query processing time cannot reorder them; a completion-order inversion
such as `[2,1,0]` requires at least two workers. -/
theorem singleWorker_results_in_submission_order (f : Nat → Int) (subs : List Query)
    (s : CounterState) (hr : Reaches f (initState subs 1) s)
    (hall : s.returned.length = subs.length) :
    s.returned.map CountResult.idx = subs.map Query.idx := by
  have hinv := reaches_inv f subs 1 s hr
  have hord := hinv.ordered (le_refl 1)
  set R : List CountResult := s.outDeque.reverse ++ (s.outQueue ++
    ((s.workers.map wbuf).flatten ++ (((s.workers.map wheld).flatten).map (procQ f) ++
    ((queueQueries s.inQueue).map (procQ f) ++ s.pending.map (procQ f))))) with hRdef
  have hform : sysList f s = s.returned ++ R := by
    rw [hRdef]
    simp [sysList, List.append_assoc]
  have hlen : (sysList f s).length = subs.length := by
    rw [hord, List.length_map]
  rw [hform, List.length_append] at hlen
  have hR0 : R.length = 0 := by omega
  have hRnil : R = [] := List.length_eq_zero.mp hR0
  rw [hRnil, List.append_nil] at hform
  have heq : s.returned = subs.map (procQ f) := by
    rw [← hform]
    exact hord
  rw [heq, List.map_map]
  apply List.map_congr_left
  intro a _
  rfl

/-- The complete scripted run of the ordering scenario on a one-worker
pool: submit indices 0, 1, 2; the single worker takes and pushes each query
in FIFO order; the client retrieves all three results; `done` broadcasts
one sentinel and the worker exits. -/
theorem orderScenarioTrace : Reaches orderF (initState orderSubs 1) orderFinal := by
  refine Relation.ReflTransGen.head
    (Step.addQuery _ ⟨0, 0⟩ [⟨1, 1⟩, ⟨2, 2⟩] rfl) ?_
  refine Relation.ReflTransGen.head
    (Step.addQuery _ ⟨1, 1⟩ [⟨2, 2⟩] rfl) ?_
  refine Relation.ReflTransGen.head
    (Step.addQuery _ ⟨2, 2⟩ [] rfl) ?_
  refine Relation.ReflTransGen.head
    (Step.workerTake _ ⟨0, 0⟩ [some ⟨1, 1⟩, some ⟨2, 2⟩] [] [] [] 0 rfl rfl) ?_
  refine Relation.ReflTransGen.head
    (Step.workerPush _ ⟨0, 0⟩ [] [] [] 0 rfl) ?_
  refine Relation.ReflTransGen.head
    (Step.workerTake _ ⟨1, 1⟩ [some ⟨2, 2⟩] [] [] [] 0 rfl rfl) ?_
  refine Relation.ReflTransGen.head
    (Step.workerPush _ ⟨1, 1⟩ [] [] [] 0 rfl) ?_
  refine Relation.ReflTransGen.head
    (Step.workerTake _ ⟨2, 2⟩ [] [] [] [] 0 rfl rfl) ?_
  refine Relation.ReflTransGen.head
    (Step.workerPush _ ⟨2, 2⟩ [] [] [] 0 rfl) ?_
  refine Relation.ReflTransGen.head
    (Step.getResultFill _ ⟨0, 0⟩ [⟨1, 1⟩, ⟨2, 2⟩] (by decide) rfl rfl) ?_
  refine Relation.ReflTransGen.head
    (Step.getResultFill _ ⟨1, 1⟩ [⟨2, 2⟩] (by decide) rfl rfl) ?_
  refine Relation.ReflTransGen.head
    (Step.getResultFill _ ⟨2, 2⟩ [] (by decide) rfl rfl) ?_
  refine Relation.ReflTransGen.head
    (Step.doneStep _ rfl rfl) ?_
  refine Relation.ReflTransGen.head
    (Step.workerSentinel _ [] [] [] [] 0 rfl rfl) ?_
  exact Relation.ReflTransGen.refl

/-- C4 counterexample: in the claimed scenario — queries with indices
`[0, 1, 2]` submitted to a ONE-worker pool — a complete run returns the
results in index order `[0, 1, 2]`, not `[2, 1, 0]`: the single worker
serves the FIFO input queue sequentially, so per-query processing time
cannot invert the completion order. -/
theorem singleWorker_scenario_not_reversed :
    Reaches orderF (initState orderSubs 1) orderFinal ∧
    orderFinal.returned.length = orderSubs.length ∧
    orderFinal.returned.map CountResult.idx = [0, 1, 2] ∧
    ([0, 1, 2] : List Nat) ≠ [2, 1, 0] := by
  exact ⟨orderScenarioTrace, by decide, by decide, by decide⟩

/-- Witness for C4 (amended) on the concrete one-worker scenario run. -/
theorem singleWorker_results_in_submission_order_witness :
    orderFinal.returned.map CountResult.idx = orderSubs.map Query.idx :=
  singleWorker_results_in_submission_order orderF orderSubs orderFinal
    orderScenarioTrace (by decide)

/-- Witness for C2 on the concrete one-worker scenario run. -/
theorem parallelCounter_exactly_once_witness :
    (orderFinal.returned.map CountResult.idx : Multiset Nat) =
      (orderSubs.map Query.idx : Multiset Nat) :=
  parallelCounter_exactly_once orderF orderSubs 1 orderFinal
    orderScenarioTrace (by decide)

/-- C8: the two-phase shutdown.  In every reachable state: (1) the number
of sentinels still in the input queue plus the number of workers that have
exited equals `numThreads` once `done` has run and 0 before — so `done`
puts exactly one sentinel per worker, sentinels exist only after `done`,
and every exited worker has consumed exactly one sentinel; (2) no worker
exits before `done`; (3) after `done`, the system can always continue to a
state in which every sentinel has been consumed and all `numThreads`
workers have exited — every worker eventually observes its one sentinel,
flushes and terminates. -/
theorem done_two_phase_shutdown (f : Nat → Int) (subs : List Query) (W : Nat)
    (s : CounterState) (hr : Reaches f (initState subs W) s) :
    (s.inQueue.count none + countFinished s.workers =
      (if s.doneSent then W else 0))
    ∧ (s.doneSent = false →
        s.inQueue.count none = 0 ∧ countFinished s.workers = 0)
    ∧ (s.doneSent = true →
        ∃ s', Reaches f s s' ∧ countFinished s'.workers = W ∧
          s'.inQueue.count none = 0 ∧ s'.workers.length = W) := by
  have hinv := reaches_inv f subs W s hr
  refine ⟨hinv.sentinels, ?_, ?_⟩
  · intro h
    have hsent := hinv.sentinels
    rw [h] at hsent
    simp at hsent
    omega
  · intro h
    exact shutdown_liveness f subs W
      (2 * s.inQueue.length + busyCount s.workers) s (le_refl _) hinv h

/-- Witness for C8 on the concrete one-worker scenario run. -/
theorem done_two_phase_shutdown_witness :
    orderFinal.inQueue.count none + countFinished orderFinal.workers =
      (if orderFinal.doneSent then 1 else 0) :=
  (done_two_phase_shutdown orderF orderSubs 1 orderFinal orderScenarioTrace).1

end BPReveal
